import Mathlib

/-!
Verification of the compression-playbook DEFLATE implementation (directory
src/essam).  The definitions below are a shallow embedding of the Rust code:
machine integers (u64, u32, u16, usize, u8) are modeled as Nat with explicit
truncation by the corresponding power of two at every operation where the Rust
code can wrap, `overflowing_shl` and `overflowing_shr` take their shift amount
modulo the bit width, and operations that can panic in a debug build (failed
assertions, arithmetic underflow or overflow on usize and u32, out of bounds
indexing) are modeled with an `Except` error value.
-/

namespace Essam

/-- Runtime outcomes of fallible Rust code paths: an io::ErrorKind::UnexpectedEof
error value, or a panic (failed assert, arithmetic underflow or overflow in a
debug build, out of bounds index). -/
inductive RunError where
  | unexpectedEof
  | panicked
deriving DecidableEq

instance {ε α : Type} [DecidableEq ε] [DecidableEq α] : DecidableEq (Except ε α) := fun a b =>
  match a, b with
  | .ok x, .ok y =>
      if h : x = y then .isTrue (by rw [h]) else .isFalse (by simp [h])
  | .error x, .error y =>
      if h : x = y then .isTrue (by rw [h]) else .isFalse (by simp [h])
  | .ok _, .error _ => .isFalse (by simp)
  | .error _, .ok _ => .isFalse (by simp)

/-! ## Bit level I/O (src/essam/src/bitio.rs)

A BitWriter wraps a byte sink (modeled as the list `out` of bytes written so
far, in order) together with a 64 bit accumulator `buffer` holding `length`
pending bits.  A BitReader wraps a byte source (modeled as the list `input` of
bytes not yet pulled from the source). -/

/-- First `k` little-endian base 256 digits of `x` (the Rust side uses
`u64::to_le_bytes`, which is the case `k = 8`). -/
def leBytesAux : Nat → Nat → List Nat
  | 0, _ => []
  | k + 1, x => x % 256 :: leBytesAux k (x / 256)

/-- Model of `u64::to_le_bytes`. -/
def toLeBytes (x : Nat) : List Nat := leBytesAux 8 x

/-- Value of a little-endian byte list (model of `u64::from_le_bytes`; bytes
missing from a partially filled 8 byte array are zero and do not change the
value). -/
def bytesVal : List Nat → Nat
  | [] => 0
  | b :: bs => b + 256 * bytesVal bs

/-- State of `bitio.rs::BitWriter`: the 64 bit accumulator, its bit count,
and the bytes already written to the wrapped sink. -/
structure BitWriter where
  buffer : Nat
  length : Nat
  out : List Nat
deriving DecidableEq

/-- `BitWriter::write_bits` (bitio.rs lines 55-72).  The u64 shifts are modeled
on Nat: a plain `<<` keeps the low 64 bits of the result, and
`overflowing_shl` / `overflowing_shr` additionally take the shift amount modulo
64.  The entry assertion `length <= 64` is carried as a hypothesis of the
theorems below; in the first branch the plain shift amount `self.length` is
below 64 whenever the branch is taken from a reachable state. -/
def BitWriter.writeBits (s : BitWriter) (data length : Nat) : BitWriter :=
  if s.length + length < 64 then
    { s with
      buffer := s.buffer ||| ((data <<< s.length) % 2 ^ 64),
      length := s.length + length }
  else
    let concatenated := s.buffer ||| ((data <<< (s.length % 64)) % 2 ^ 64)
    { buffer := (data >>> ((64 - s.length) % 64)) % 2 ^ 64,
      length := length + s.length - 64,
      out := s.out ++ toLeBytes concatenated }

/-- `<BitWriter as Write>::flush` (bitio.rs lines 24-33): if bits are pending,
the low `ceil(length / 8)` bytes of the accumulator are written.  Returns the
full byte stream seen by the sink. -/
def BitWriter.flushOut (s : BitWriter) : List Nat :=
  if 0 < s.length then s.out ++ (toLeBytes s.buffer).take ((s.length + 7) / 8)
  else s.out

/-- State of `bitio.rs::BitReader`: the 64 bit accumulator, its bit count, and
the bytes the wrapped source has not yielded yet. -/
structure BitReader where
  buffer : Nat
  length : Nat
  input : List Nat
deriving DecidableEq

/-- `BitReader::read_bits` (bitio.rs lines 108-140).  `self.read` on an 8 byte
array yields `min 8 (bytes remaining)` bytes.  The test
`length > self.length + length` is the literal (dead) UnexpectedEof guard of
the source; the usize update `self.length + read_bits - length` panics on
underflow in a debug build, modeled by `RunError.panicked`.  The entry
assertion `length <= 64` is carried as a hypothesis of the theorems below. -/
def BitReader.readBits (s : BitReader) (length : Nat) :
    Except RunError (Nat × BitReader) :=
  let mask := (2 ^ 64 - 1) >>> ((64 - length) % 64)
  if length < s.length then
    .ok (s.buffer &&& mask,
      { s with buffer := s.buffer >>> (length % 64), length := s.length - length })
  else
    let bytes := s.input.take 8
    let readBytes := bytes.length
    let newBuffer := bytesVal bytes
    let readBitCount := 8 * readBytes
    if length > s.length + length then
      .error .unexpectedEof
    else
      let result := (s.buffer ||| ((newBuffer <<< (s.length % 64)) % 2 ^ 64)) &&& mask
      if s.length + readBitCount < length then
        .error .panicked
      else
        .ok (result,
          { buffer := newBuffer >>> ((length - s.length) % 64),
            length := s.length + readBitCount - length,
            input := s.input.drop 8 })

/-- C3: the spec says read_bits fails with UnexpectedEof when the source yields
zero bytes before `length` bits are assembled.  In the code the guard
`length > self.length + length` compares `length` with itself plus the buffered
bit count (instead of the freshly read bit count), so it never fires; on a
fresh reader over an empty source, `read_bits(1)` instead reaches the usize
update `self.length + read_bits - length = 0 + 0 - 1`, which underflows and
panics (debug build), rather than returning UnexpectedEof. -/
theorem read_bits_empty_source_panics :
    BitReader.readBits { buffer := 0, length := 0, input := [] } 1 =
      .error RunError.panicked := by
  decide

/-- Helper: `leBytesAux` always produces exactly `k` bytes. -/
theorem bytesVal_leBytesAux (k : Nat) : ∀ x, bytesVal (leBytesAux k x) = x % 256 ^ k := by
  induction k with
  | zero => intro x; simp [leBytesAux, bytesVal, Nat.mod_one]
  | succ k ih =>
    intro x
    rw [leBytesAux, bytesVal, ih, pow_succ' (M := ℕ)]
    exact (Nat.mod_mul).symm

theorem leBytesAux_length (k : Nat) : ∀ x, (leBytesAux k x).length = k := by
  induction k with
  | zero => intro x; rfl
  | succ k ih => intro x; simp [leBytesAux, ih]

/-- C4 (counterexample): the claim quantifies over all states with
`0 <= n < 64`.  At `n = 0` with `write_bits(1, 64)`, the wrapping shift
`data.overflowing_shr(64 - 0)` degenerates to a shift by zero, so the
accumulator keeps the whole written word: the bit count becomes 0 but the
buffer is 1, and this residue corrupts a later `write_bits(0, 1)` followed by
`flush`, which emits the byte 1 where a clean accumulator would emit 0. -/
theorem write_bits_boundary_counterexample :
    (BitWriter.writeBits { buffer := 0, length := 0, out := [] } 1 64).length = 0 ∧
    (BitWriter.writeBits { buffer := 0, length := 0, out := [] } 1 64).buffer = 1 ∧
    BitWriter.flushOut
        (BitWriter.writeBits
          (BitWriter.writeBits { buffer := 0, length := 0, out := [] } 1 64) 0 1) ≠
      BitWriter.flushOut
        (BitWriter.writeBits
          { buffer := 0, length := 0,
            out := (BitWriter.writeBits { buffer := 0, length := 0, out := [] } 1 64).out }
          0 1) := by
  refine ⟨by decide, by decide, by decide⟩

/-- C4 (amended): for a state with `1 <= n < 64` buffered bits (buffer within
those bits) and a call with `n + length = 64` and the high bits of `data` above
`length` zero, write_bits emits exactly 8 bytes, whose little-endian value is
the buffered bits followed by the data bits, and leaves a genuinely empty
accumulator: bit count 0 and buffer 0. -/
theorem write_bits_boundary (s : BitWriter) (data length : Nat)
    (hn : 1 ≤ s.length) (hn2 : s.length < 64) (hsum : s.length + length = 64)
    (hdata : data < 2 ^ length) (hbuf : s.buffer < 2 ^ s.length) :
    ∃ emitted : List Nat, emitted.length = 8 ∧
      bytesVal emitted = s.buffer + 2 ^ s.length * data ∧
      BitWriter.writeBits s data length = { buffer := 0, length := 0, out := s.out ++ emitted } := by
  have hm : s.length % 64 = s.length := Nat.mod_eq_of_lt (by omega)
  have hshl : (data <<< (s.length % 64)) % 2 ^ 64 = 2 ^ s.length * data := by
    rw [hm, Nat.shiftLeft_eq, Nat.mod_eq_of_lt, Nat.mul_comm]
    calc data * 2 ^ s.length < 2 ^ length * 2 ^ s.length :=
          mul_lt_mul_of_pos_right hdata (pow_pos (by norm_num) _)
      _ = 2 ^ 64 := by rw [← pow_add, show length + s.length = 64 by omega]
  have hor : s.buffer ||| 2 ^ s.length * data = s.buffer + 2 ^ s.length * data := by
    rw [Nat.lor_comm, ← Nat.mul_add_lt_is_or hbuf, Nat.add_comm]
  have hconc : s.buffer + 2 ^ s.length * data < 2 ^ 64 := by
    have hd1 : data + 1 ≤ 2 ^ length := hdata
    calc s.buffer + 2 ^ s.length * data
        < 2 ^ s.length + 2 ^ s.length * data := Nat.add_lt_add_right hbuf _
      _ = 2 ^ s.length * (data + 1) := by ring
      _ ≤ 2 ^ s.length * 2 ^ length := Nat.mul_le_mul_left _ hd1
      _ = 2 ^ 64 := by rw [← pow_add, show s.length + length = 64 by omega]
  refine ⟨toLeBytes (s.buffer ||| ((data <<< (s.length % 64)) % 2 ^ 64)),
    leBytesAux_length 8 _, ?_, ?_⟩
  · rw [hshl, hor, toLeBytes, bytesVal_leBytesAux,
      show (256 : ℕ) ^ 8 = 2 ^ 64 by norm_num, Nat.mod_eq_of_lt hconc]
  · have hlt : ¬ s.length + length < 64 := by omega
    have hmod : (64 - s.length) % 64 = length := by omega
    have hshr : data >>> length = 0 := by
      rw [Nat.shiftRight_eq_div_pow]
      exact Nat.div_eq_of_lt hdata
    simp only [BitWriter.writeBits, if_neg hlt, hmod, hshr]
    have hlen0 : length + s.length - 64 = 0 := by omega
    simp [hlen0]

/-- C4 (witness for write_bits_boundary): the concrete state with 4 buffered
bits and a 60 bit write. -/
theorem write_bits_boundary_witness :
    ∃ emitted : List Nat, emitted.length = 8 ∧
      bytesVal emitted = 1 + 2 ^ 4 * 3 ∧
      BitWriter.writeBits { buffer := 1, length := 4, out := [] } 3 60 =
        { buffer := 0, length := 0, out := [] ++ emitted } :=
  write_bits_boundary { buffer := 1, length := 4, out := [] } 3 60
    (by decide) (by decide) (by decide) (by decide) (by decide)

/-! ## Bit stream round trip (claim C5)

The written stream is abstracted as a single natural number (the concatenated
bits, least significant bit first) together with its bit count. -/

/-- Write a list of (data, length) fields in order. -/
def writeAll : BitWriter → List (Nat × Nat) → BitWriter
  | s, [] => s
  | s, (d, l) :: ps => writeAll (s.writeBits d l) ps

/-- Read back a list of field widths in order, collecting the values. -/
def readAll : BitReader → List Nat → Except RunError (List Nat)
  | _, [] => .ok []
  | s, l :: ls =>
    match s.readBits l with
    | .error e => .error e
    | .ok (d, s') =>
      match readAll s' ls with
      | .error e => .error e
      | .ok ds => .ok (d :: ds)

/-- Write every pair, flush, then read the lengths back from the produced
byte stream. -/
def roundTrip (pairs : List (Nat × Nat)) : Except RunError (List Nat) :=
  readAll { buffer := 0, length := 0, input := BitWriter.flushOut (writeAll { buffer := 0, length := 0, out := [] } pairs) }
    (pairs.map Prod.snd)

/-- Value of the bit stream denoted by a list of (data, length) fields,
least significant bit first. -/
def streamValPairs : List (Nat × Nat) → Nat
  | [] => 0
  | (d, l) :: ps => d + 2 ^ l * streamValPairs ps

/-- Total bit count of a list of (data, length) fields. -/
def streamLenPairs : List (Nat × Nat) → Nat
  | [] => 0
  | (_, l) :: ps => l + streamLenPairs ps

/-- Well-formedness of a writer state: bit count below 64, buffer within its
bit count, bytes already written within u8 range. -/
def BitWriter.wf (s : BitWriter) : Prop :=
  s.length < 64 ∧ s.buffer < 2 ^ s.length ∧ ∀ b ∈ s.out, b < 256

/-- Bit stream a writer state has accepted so far, as a number. -/
def BitWriter.streamVal (s : BitWriter) : Nat :=
  bytesVal s.out + 2 ^ (8 * s.out.length) * s.buffer

/-- Bit count a writer state has accepted so far. -/
def BitWriter.streamBits (s : BitWriter) : Nat :=
  8 * s.out.length + s.length

/-- Well-formedness of a reader state. -/
def BitReader.wf (s : BitReader) : Prop :=
  s.length ≤ 64 ∧ s.buffer < 2 ^ s.length ∧ ∀ b ∈ s.input, b < 256

/-- Bit stream still ahead of a reader state, as a number. -/
def BitReader.streamVal (s : BitReader) : Nat :=
  s.buffer + 2 ^ s.length * bytesVal s.input

/-- Bit count still ahead of a reader state. -/
def BitReader.streamBits (s : BitReader) : Nat :=
  s.length + 8 * s.input.length

theorem bytesVal_append (a b : List Nat) :
    bytesVal (a ++ b) = bytesVal a + 256 ^ a.length * bytesVal b := by
  induction a with
  | nil => simp [bytesVal]
  | cons x xs ih => simp [bytesVal, ih, pow_succ]; ring

theorem leBytesAux_take (m : Nat) : ∀ k x, (leBytesAux m x).take k = leBytesAux (min k m) x := by
  induction m with
  | zero => intro k x; simp [leBytesAux]
  | succ m ih =>
    intro k x
    cases k with
    | zero => simp [leBytesAux]
    | succ k => simp [leBytesAux, List.take, ih, Nat.succ_min_succ]

theorem leBytesAux_mem_lt (k : Nat) : ∀ x, ∀ b ∈ leBytesAux k x, b < 256 := by
  induction k with
  | zero => intro x b hb; simp [leBytesAux] at hb
  | succ k ih =>
    intro x b hb
    rw [leBytesAux] at hb
    rcases List.mem_cons.mp hb with h | h
    · subst h; exact Nat.mod_lt _ (by norm_num)
    · exact ih _ b h

theorem bytesVal_lt (bs : List Nat) (h : ∀ b ∈ bs, b < 256) :
    bytesVal bs < 256 ^ bs.length := by
  induction bs with
  | nil => simp [bytesVal]
  | cons x xs ih =>
    have hx : x < 256 := h x (List.mem_cons_self x xs)
    have hxs : bytesVal xs < 256 ^ xs.length := ih fun b hb => h b (List.mem_cons_of_mem x hb)
    rw [bytesVal, List.length_cons, pow_succ]
    calc x + 256 * bytesVal xs < 256 + 256 * bytesVal xs := by omega
    _ = 256 * (bytesVal xs + 1) := by ring
    _ ≤ 256 * 256 ^ xs.length := by
        exact Nat.mul_le_mul_left _ hxs
    _ = 256 ^ xs.length * 256 := by ring

/-- One write_bits call with a field width in [1, 63] appends exactly the low
`l` bits of `d` to the abstract bit stream and preserves well-formedness. -/
theorem BitWriter.writeBits_spec (s : BitWriter) (d l : Nat)
    (hwf : s.wf) (hl1 : 1 ≤ l) (hl2 : l ≤ 63) (hd : d < 2 ^ l) :
    (s.writeBits d l).wf ∧
      (s.writeBits d l).streamVal = s.streamVal + 2 ^ s.streamBits * d ∧
      (s.writeBits d l).streamBits = s.streamBits + l := by
  obtain ⟨hn, hb, hout⟩ := hwf
  by_cases hcase : s.length + l < 64
  · have h1 : (d <<< s.length) % 2 ^ 64 = 2 ^ s.length * d := by
      rw [Nat.shiftLeft_eq, Nat.mod_eq_of_lt, Nat.mul_comm]
      calc d * 2 ^ s.length < 2 ^ l * 2 ^ s.length :=
            mul_lt_mul_of_pos_right hd (pow_pos (by norm_num) _)
        _ = 2 ^ (l + s.length) := (pow_add 2 l s.length).symm
        _ ≤ 2 ^ 64 := Nat.pow_le_pow_right (by norm_num) (by omega)
    have h2 : s.buffer ||| 2 ^ s.length * d = 2 ^ s.length * d + s.buffer := by
      rw [Nat.lor_comm]
      exact (Nat.mul_add_lt_is_or hb d).symm
    have hbuf : 2 ^ s.length * d + s.buffer < 2 ^ (s.length + l) := by
      have hd1 : d + 1 ≤ 2 ^ l := hd
      calc 2 ^ s.length * d + s.buffer < 2 ^ s.length * (d + 1) := by
            rw [Nat.mul_add, Nat.mul_one]; omega
        _ ≤ 2 ^ s.length * 2 ^ l := Nat.mul_le_mul_left _ hd1
        _ = 2 ^ (s.length + l) := (pow_add 2 s.length l).symm
    simp only [BitWriter.writeBits, if_pos hcase, BitWriter.wf, BitWriter.streamVal,
      BitWriter.streamBits, h1, h2]
    refine ⟨⟨hcase, hbuf, hout⟩, ?_, by omega⟩
    rw [pow_add]
    ring
  · -- emit branch: the concatenated 64 bit word goes out, the top bits of d stay
    have hn1 : 1 ≤ s.length := by omega
    have hm63 : 64 - s.length ≤ 63 := by omega
    have hml : 64 - s.length ≤ l := by omega
    have hmod1 : s.length % 64 = s.length := Nat.mod_eq_of_lt hn
    have hmod2 : (64 - s.length) % 64 = 64 - s.length := Nat.mod_eq_of_lt (by omega)
    have h64 : (2 : ℕ) ^ 64 = 2 ^ s.length * 2 ^ (64 - s.length) := by
      rw [← pow_add]
      congr 1
      omega
    have h1 : (d <<< (s.length % 64)) % 2 ^ 64 =
        2 ^ s.length * (d % 2 ^ (64 - s.length)) := by
      rw [hmod1, Nat.shiftLeft_eq, Nat.mul_comm d, h64, Nat.mul_mod_mul_left]
    have h2 : s.buffer ||| 2 ^ s.length * (d % 2 ^ (64 - s.length)) =
        2 ^ s.length * (d % 2 ^ (64 - s.length)) + s.buffer := by
      rw [Nat.lor_comm]
      exact (Nat.mul_add_lt_is_or hb _).symm
    have hconc : 2 ^ s.length * (d % 2 ^ (64 - s.length)) + s.buffer < 2 ^ 64 := by
      have hx : d % 2 ^ (64 - s.length) + 1 ≤ 2 ^ (64 - s.length) :=
        Nat.mod_lt _ (pow_pos (by norm_num) _)
      calc 2 ^ s.length * (d % 2 ^ (64 - s.length)) + s.buffer
          < 2 ^ s.length * (d % 2 ^ (64 - s.length) + 1) := by
            rw [Nat.mul_add, Nat.mul_one]; omega
        _ ≤ 2 ^ s.length * 2 ^ (64 - s.length) := Nat.mul_le_mul_left _ hx
        _ = 2 ^ 64 := h64.symm
    have hdiv : d >>> ((64 - s.length) % 64) = d / 2 ^ (64 - s.length) := by
      rw [hmod2, Nat.shiftRight_eq_div_pow]
    have hdivlt : d / 2 ^ (64 - s.length) < 2 ^ (l + s.length - 64) := by
      rw [Nat.div_lt_iff_lt_mul (pow_pos (by norm_num) _), ← pow_add]
      calc d < 2 ^ l := hd
        _ ≤ 2 ^ (l + s.length - 64 + (64 - s.length)) :=
            Nat.pow_le_pow_right (by norm_num) (by omega)
    have hdivmod : d / 2 ^ (64 - s.length) % 2 ^ 64 = d / 2 ^ (64 - s.length) :=
      Nat.mod_eq_of_lt (lt_of_lt_of_le hdivlt (Nat.pow_le_pow_right (by norm_num) (by omega)))
    simp only [BitWriter.writeBits, if_neg hcase, BitWriter.wf, BitWriter.streamVal,
      BitWriter.streamBits, h1, h2, hdiv, hdivmod, List.length_append,
      leBytesAux_length, toLeBytes, bytesVal_append]
    refine ⟨⟨by omega, hdivlt, ?_⟩, ?_, by omega⟩
    · intro b hbmem
      rcases List.mem_append.mp hbmem with h | h
      · exact hout b h
      · exact leBytesAux_mem_lt 8 _ b h
    · rw [bytesVal_leBytesAux,
        Nat.mod_eq_of_lt (show 2 ^ s.length * (d % 2 ^ (64 - s.length)) + s.buffer < 256 ^ 8 by
          norm_num; exact hconc)]
      have hsplit : d % 2 ^ (64 - s.length) + 2 ^ (64 - s.length) * (d / 2 ^ (64 - s.length)) = d :=
        Nat.mod_add_div _ _
      have hp1 : (256 : ℕ) ^ s.out.length = 2 ^ (8 * s.out.length) := by
        rw [show (256 : ℕ) = 2 ^ 8 by norm_num, ← pow_mul]
      have hp2 : (2 : ℕ) ^ (8 * (s.out.length + 8)) =
          2 ^ (8 * s.out.length) * (2 ^ s.length * 2 ^ (64 - s.length)) := by
        rw [← h64, ← pow_add]
        congr 1
      have hp3 : (2 : ℕ) ^ (8 * s.out.length + s.length) =
          2 ^ (8 * s.out.length) * 2 ^ s.length := by
        rw [← pow_add]
      have hkey : 2 ^ (8 * s.out.length + s.length) * d =
          2 ^ (8 * s.out.length) * (2 ^ s.length * (d % 2 ^ (64 - s.length))) +
            2 ^ (8 * s.out.length) *
              (2 ^ s.length * (2 ^ (64 - s.length) * (d / 2 ^ (64 - s.length)))) := by
        conv_lhs => rw [← hsplit]
        rw [hp3]
        ring
      rw [hp1, hp2, hkey]
      ring

/-- Flushing a well-formed writer yields a byte stream whose value is exactly
the abstract stream (zero padding adds nothing) and whose bit capacity covers
every written bit. -/
theorem BitWriter.flushOut_spec (s : BitWriter) (hwf : s.wf) :
    bytesVal s.flushOut = s.streamVal ∧
      s.streamBits ≤ 8 * s.flushOut.length ∧ ∀ b ∈ s.flushOut, b < 256 := by
  obtain ⟨hn, hb, hout⟩ := hwf
  by_cases hlen : 0 < s.length
  · have hk8 : (s.length + 7) / 8 ≤ 8 := by omega
    have htake : (toLeBytes s.buffer).take ((s.length + 7) / 8) =
        leBytesAux ((s.length + 7) / 8) s.buffer := by
      rw [toLeBytes, leBytesAux_take 8 ((s.length + 7) / 8) s.buffer, Nat.min_eq_left hk8]
    have hval : bytesVal (leBytesAux ((s.length + 7) / 8) s.buffer) = s.buffer := by
      rw [bytesVal_leBytesAux, Nat.mod_eq_of_lt]
      calc s.buffer < 2 ^ s.length := hb
        _ ≤ 256 ^ ((s.length + 7) / 8) := by
            rw [show (256 : ℕ) = 2 ^ 8 by norm_num, ← pow_mul]
            exact Nat.pow_le_pow_right (by norm_num) (by omega)
    have hp1 : (256 : ℕ) ^ s.out.length = 2 ^ (8 * s.out.length) := by
      rw [show (256 : ℕ) = 2 ^ 8 by norm_num, ← pow_mul]
    simp only [BitWriter.flushOut, if_pos hlen, htake, bytesVal_append, hval,
      BitWriter.streamVal, BitWriter.streamBits, List.length_append, leBytesAux_length,
      hp1]
    refine ⟨trivial, by omega, ?_⟩
    intro b hbmem
    rcases List.mem_append.mp hbmem with h | h
    · exact hout b h
    · exact leBytesAux_mem_lt _ _ b h
  · have hlen0 : s.length = 0 := by omega
    have hb0 : s.buffer = 0 := by
      rw [hlen0] at hb
      simpa using hb
    refine ⟨?_, ?_, ?_⟩
    · simp [BitWriter.flushOut, hlen, BitWriter.streamVal, hb0]
    · rw [BitWriter.flushOut, if_neg hlen, BitWriter.streamBits, hlen0]
      omega
    · intro b hbm
      rw [BitWriter.flushOut, if_neg hlen] at hbm
      exact hout b hbm

/-- One read_bits call with a field width in [1, 63], on a well-formed reader
holding at least that many bits, returns exactly the next `l` stream bits and
advances the stream. -/
theorem BitReader.readBits_spec (s : BitReader) (l : Nat)
    (hwf : s.wf) (hl1 : 1 ≤ l) (hl2 : l ≤ 63) (hav : l ≤ s.streamBits) :
    ∃ s' : BitReader, s.readBits l = .ok (s.streamVal % 2 ^ l, s') ∧ s'.wf ∧
      s'.streamVal = s.streamVal / 2 ^ l ∧ s'.streamBits = s.streamBits - l := by
  obtain ⟨hn, hb, hin⟩ := hwf
  have hmask : (2 ^ 64 - 1) >>> ((64 - l) % 64) = 2 ^ l - 1 := by
    have hm : (64 - l) % 64 = 64 - l := Nat.mod_eq_of_lt (by omega)
    have h2 : (2 : ℕ) ^ 64 = 2 ^ (64 - l) * 2 ^ l := by
      rw [← pow_add]
      congr 1
      omega
    have h3 : (0 : ℕ) < 2 ^ l := pow_pos (by norm_num) l
    have h4 : (0 : ℕ) < 2 ^ (64 - l) := pow_pos (by norm_num) (64 - l)
    have h5 : (2 : ℕ) ^ (64 - l) ≤ 2 ^ (64 - l) * 2 ^ l := by
      have := Nat.mul_le_mul_left (2 ^ (64 - l)) h3
      simpa using this
    have h1 : (2 : ℕ) ^ 64 - 1 = 2 ^ (64 - l) * (2 ^ l - 1) + (2 ^ (64 - l) - 1) := by
      rw [h2, Nat.mul_sub, Nat.mul_one]
      omega
    rw [hm, Nat.shiftRight_eq_div_pow, h1, Nat.mul_add_div h4,
      Nat.div_eq_of_lt (by omega), Nat.add_zero]
  by_cases hcase : l < s.length
  · -- enough buffered bits
    have hres : s.buffer &&& (2 ^ l - 1) = s.buffer % 2 ^ l :=
      Nat.and_pow_two_sub_one_eq_mod _ _
    have hlm : l % 64 = l := Nat.mod_eq_of_lt (by omega)
    have hvmod : s.streamVal % 2 ^ l = s.buffer % 2 ^ l := by
      rw [BitReader.streamVal,
        show (2 : ℕ) ^ s.length = 2 ^ l * 2 ^ (s.length - l) by
          rw [← pow_add]; congr 1; omega,
        Nat.mul_assoc, Nat.add_mul_mod_self_left]
    refine ⟨{ s with buffer := s.buffer >>> (l % 64), length := s.length - l }, ?_, ?_, ?_, ?_⟩
    · rw [BitReader.readBits]
      simp only [hmask, if_pos hcase, hres, hvmod]
    · refine ⟨show s.length - l ≤ 64 by omega, ?_, hin⟩
      show s.buffer >>> (l % 64) < 2 ^ (s.length - l)
      rw [hlm, Nat.shiftRight_eq_div_pow]
      exact Nat.div_lt_of_lt_mul
        (by rw [← pow_add, show l + (s.length - l) = s.length by omega]; exact hb)
    · show s.buffer >>> (l % 64) + 2 ^ (s.length - l) * bytesVal s.input = s.streamVal / 2 ^ l
      rw [BitReader.streamVal, hlm, Nat.shiftRight_eq_div_pow,
        show (2 : ℕ) ^ s.length = 2 ^ l * 2 ^ (s.length - l) by
          rw [← pow_add]; congr 1; omega,
        Nat.mul_assoc, Nat.add_mul_div_left _ _ (pow_pos (by norm_num) _)]
    · simp only [BitReader.streamBits]
      omega
  · -- pull up to 8 bytes from the source
    have hns : s.length ≤ l := by omega
    have hlm : s.length % 64 = s.length := Nat.mod_eq_of_lt (by omega)
    have hrb : (s.input.take 8).length = min 8 s.input.length := List.length_take 8 s.input
    have hBlt : bytesVal (s.input.take 8) < 2 ^ (8 * (s.input.take 8).length) := by
      rw [show (2 : ℕ) ^ (8 * (s.input.take 8).length) = 256 ^ (s.input.take 8).length by
        rw [show (256 : ℕ) = 2 ^ 8 by norm_num, ← pow_mul]]
      exact bytesVal_lt _ fun b hbm => hin b (List.mem_of_mem_take hbm)
    have hnouf : ¬ s.length + 8 * (s.input.take 8).length < l := by
      rw [BitReader.streamBits] at hav
      omega
    have hguard : ¬ s.length + l < l := by omega
    have hp256 : (256 : ℕ) ^ (s.input.take 8).length = 2 ^ (8 * (s.input.take 8).length) := by
      rw [show (256 : ℕ) = 2 ^ 8 by norm_num, ← pow_mul]
    have hinput : bytesVal s.input =
        bytesVal (s.input.take 8) +
          2 ^ (8 * (s.input.take 8).length) * bytesVal (s.input.drop 8) := by
      conv_lhs => rw [← List.take_append_drop 8 s.input]
      rw [bytesVal_append, hp256]
    have hshl : (bytesVal (s.input.take 8) <<< (s.length % 64)) % 2 ^ 64 =
        2 ^ s.length * (bytesVal (s.input.take 8) % 2 ^ (64 - s.length)) := by
      rw [hlm, Nat.shiftLeft_eq, Nat.mul_comm,
        show (2 : ℕ) ^ 64 = 2 ^ s.length * 2 ^ (64 - s.length) by
          rw [← pow_add]; congr 1; omega,
        Nat.mul_mod_mul_left]
    have hor : s.buffer ||| 2 ^ s.length * (bytesVal (s.input.take 8) % 2 ^ (64 - s.length)) =
        2 ^ s.length * (bytesVal (s.input.take 8) % 2 ^ (64 - s.length)) + s.buffer := by
      rw [Nat.lor_comm]
      exact (Nat.mul_add_lt_is_or hb _).symm
    have e1 : (2 : ℕ) ^ l * 2 ^ (64 - l) = 2 ^ s.length * 2 ^ (64 - s.length) := by
      rw [← pow_add, ← pow_add]
      congr 1
      omega
    have e2 : (2 : ℕ) ^ l * 2 ^ (s.length + 8 * (s.input.take 8).length - l) =
        2 ^ s.length * 2 ^ (8 * (s.input.take 8).length) := by
      rw [← pow_add, ← pow_add]
      congr 1
      omega
    have e3 : (2 : ℕ) ^ l = 2 ^ s.length * 2 ^ (l - s.length) := by
      rw [← pow_add]
      congr 1
      omega
    have hBsplit : bytesVal (s.input.take 8) % 2 ^ (64 - s.length) +
        2 ^ (64 - s.length) * (bytesVal (s.input.take 8) / 2 ^ (64 - s.length)) =
        bytesVal (s.input.take 8) := Nat.mod_add_div _ _
    have hv : (2 ^ s.length * (bytesVal (s.input.take 8) % 2 ^ (64 - s.length)) + s.buffer) +
          2 ^ l * (2 ^ (64 - l) * (bytesVal (s.input.take 8) / 2 ^ (64 - s.length)) +
            2 ^ (s.length + 8 * (s.input.take 8).length - l) * bytesVal (s.input.drop 8)) =
        s.streamVal := by
      rw [BitReader.streamVal, hinput]
      conv_rhs => rw [← hBsplit]
      rw [Nat.mul_add (2 ^ l),
        ← Nat.mul_assoc (2 ^ l) (2 ^ (64 - l)),
        ← Nat.mul_assoc (2 ^ l) (2 ^ (s.length + 8 * (s.input.take 8).length - l)),
        e1, e2]
      ring
    have hBsplit2 : bytesVal (s.input.take 8) % 2 ^ (l - s.length) +
        2 ^ (l - s.length) * (bytesVal (s.input.take 8) / 2 ^ (l - s.length)) =
        bytesVal (s.input.take 8) := Nat.mod_add_div _ _
    have hv2 : 2 ^ l * (bytesVal (s.input.take 8) / 2 ^ (l - s.length) +
            2 ^ (s.length + 8 * (s.input.take 8).length - l) * bytesVal (s.input.drop 8)) +
          (s.buffer + 2 ^ s.length * (bytesVal (s.input.take 8) % 2 ^ (l - s.length))) =
        s.streamVal := by
      rw [BitReader.streamVal, hinput]
      conv_rhs => rw [← hBsplit2]
      rw [Nat.mul_add (2 ^ l),
        ← Nat.mul_assoc (2 ^ l) (2 ^ (s.length + 8 * (s.input.take 8).length - l)),
        e2, e3]
      ring
    have hrem : s.buffer + 2 ^ s.length * (bytesVal (s.input.take 8) % 2 ^ (l - s.length)) <
        2 ^ l := by
      have hx : bytesVal (s.input.take 8) % 2 ^ (l - s.length) + 1 ≤ 2 ^ (l - s.length) :=
        Nat.mod_lt _ (pow_pos (by norm_num) _)
      calc s.buffer + 2 ^ s.length * (bytesVal (s.input.take 8) % 2 ^ (l - s.length))
          < 2 ^ s.length * (bytesVal (s.input.take 8) % 2 ^ (l - s.length) + 1) := by
            rw [Nat.mul_add, Nat.mul_one]; omega
        _ ≤ 2 ^ s.length * 2 ^ (l - s.length) := Nat.mul_le_mul_left _ hx
        _ = 2 ^ l := e3.symm
    have hres : (s.buffer |||
          ((bytesVal (s.input.take 8) <<< (s.length % 64)) % 2 ^ 64)) &&& (2 ^ l - 1) =
        s.streamVal % 2 ^ l := by
      rw [hshl, hor, Nat.and_pow_two_sub_one_eq_mod, ← hv, Nat.add_mul_mod_self_left]
    have hlnm : (l - s.length) % 64 = l - s.length := Nat.mod_eq_of_lt (by omega)
    refine ⟨{ buffer := bytesVal (s.input.take 8) >>> ((l - s.length) % 64),
              length := s.length + 8 * (s.input.take 8).length - l,
              input := s.input.drop 8 }, ?_, ?_, ?_, ?_⟩
    · rw [BitReader.readBits]
      simp only [hmask, if_neg hcase, gt_iff_lt, if_neg hguard, if_neg hnouf, hres]
    · refine ⟨show s.length + 8 * (s.input.take 8).length - l ≤ 64 by omega, ?_,
        fun b hbm => hin b (List.mem_of_mem_drop hbm)⟩
      show bytesVal (s.input.take 8) >>> ((l - s.length) % 64) <
        2 ^ (s.length + 8 * (s.input.take 8).length - l)
      rw [hlnm, Nat.shiftRight_eq_div_pow]
      apply Nat.div_lt_of_lt_mul
      calc bytesVal (s.input.take 8) < 2 ^ (8 * (s.input.take 8).length) := hBlt
        _ = 2 ^ (l - s.length) * 2 ^ (s.length + 8 * (s.input.take 8).length - l) := by
            rw [← pow_add]; congr 1; omega
    · show bytesVal (s.input.take 8) >>> ((l - s.length) % 64) +
          2 ^ (s.length + 8 * (s.input.take 8).length - l) * bytesVal (s.input.drop 8) =
        s.streamVal / 2 ^ l
      rw [hlnm, Nat.shiftRight_eq_div_pow, ← hv2,
        Nat.mul_add_div (pow_pos (by norm_num) l), Nat.div_eq_of_lt hrem, Nat.add_zero]
    · simp only [BitReader.streamBits, List.length_drop]
      omega

/-- Writing a whole list of fields appends the concatenated bit stream. -/
theorem writeAll_spec (pairs : List (Nat × Nat)) :
    ∀ s : BitWriter, s.wf → (∀ p ∈ pairs, 1 ≤ p.2 ∧ p.2 ≤ 63 ∧ p.1 < 2 ^ p.2) →
      (writeAll s pairs).wf ∧
        (writeAll s pairs).streamVal = s.streamVal + 2 ^ s.streamBits * streamValPairs pairs ∧
        (writeAll s pairs).streamBits = s.streamBits + streamLenPairs pairs := by
  induction pairs with
  | nil =>
    intro s hwf _
    simp [writeAll, streamValPairs, streamLenPairs, hwf]
  | cons p ps ih =>
    obtain ⟨d, l⟩ := p
    intro s hwf hp
    obtain ⟨h1, h2, h3⟩ := hp (d, l) (List.mem_cons_self _ _)
    obtain ⟨hwf', hv, hbits⟩ := BitWriter.writeBits_spec s d l hwf h1 h2 h3
    obtain ⟨hwf'', hv', hbits'⟩ := ih (s.writeBits d l) hwf'
      fun q hq => hp q (List.mem_cons_of_mem _ hq)
    refine ⟨hwf'', ?_, ?_⟩
    · rw [writeAll, hv', hv, hbits, streamValPairs, pow_add]
      ring
    · rw [writeAll, hbits', hbits, streamLenPairs]
      omega

/-- Reading the field widths back in order returns exactly the written data. -/
theorem readAll_spec (pairs : List (Nat × Nat)) :
    ∀ r : BitReader, r.wf → (∀ p ∈ pairs, 1 ≤ p.2 ∧ p.2 ≤ 63 ∧ p.1 < 2 ^ p.2) →
      r.streamVal = streamValPairs pairs → streamLenPairs pairs ≤ r.streamBits →
      readAll r (pairs.map Prod.snd) = .ok (pairs.map Prod.fst) := by
  induction pairs with
  | nil =>
    intro r _ _ _ _
    simp [readAll]
  | cons p ps ih =>
    obtain ⟨d, l⟩ := p
    intro r hwf hp hval hlen
    obtain ⟨h1, h2, h3⟩ := hp (d, l) (List.mem_cons_self _ _)
    have hl : l ≤ r.streamBits := by
      rw [streamLenPairs] at hlen
      omega
    obtain ⟨r', hok, hwf', hval', hbits'⟩ := BitReader.readBits_spec r l hwf h1 h2 hl
    have hvd : r.streamVal % 2 ^ l = d := by
      rw [hval, streamValPairs, Nat.add_mul_mod_self_left, Nat.mod_eq_of_lt h3]
    have hvr : r'.streamVal = streamValPairs ps := by
      rw [hval', hval, streamValPairs, Nat.add_mul_div_left _ _ (pow_pos (by norm_num) _),
        Nat.div_eq_of_lt h3, Nat.zero_add]
    have hbr : streamLenPairs ps ≤ r'.streamBits := by
      rw [streamLenPairs] at hlen
      omega
    have hrec := ih r' hwf' (fun q hq => hp q (List.mem_cons_of_mem _ hq)) hvr hbr
    simp only [List.map_cons, readAll, hok, hvd, hrec]

/-- C5 (counterexample): the claim ranges over all field widths up to 64 and
data below the width, so it covers the zero width pair (0, 0) and full 64 bit
fields.  A zero width read returns the whole remaining accumulator (the mask
shift wraps), and a 64 bit field written onto an empty accumulator leaves the
data itself as a stale buffer on both sides, so both sequences below read back
wrong values. -/
theorem bit_roundtrip_counterexample :
    roundTrip [(1, 1), (0, 0), (1, 1)] ≠
        Except.ok ([(1, 1), (0, 0), (1, 1)].map Prod.fst) ∧
      roundTrip [(1, 64), (0, 64)] ≠ Except.ok ([(1, 64), (0, 64)].map Prod.fst) :=
  ⟨by decide, by decide⟩

/-- C5 (amended): for every finite sequence of pairs (data, length) with
1 <= length <= 63, data < 2^length, and total length at most 10^6, writing the
pairs in order, flushing, and reading each length back over the produced byte
stream returns exactly the original data sequence.  (The original claim also
admits length 0 and length 64, which the counterexample refutes.) -/
theorem bit_roundtrip (pairs : List (Nat × Nat))
    (hp : ∀ p ∈ pairs, 1 ≤ p.2 ∧ p.2 ≤ 63 ∧ p.1 < 2 ^ p.2)
    (_htotal : streamLenPairs pairs ≤ 10 ^ 6) :
    roundTrip pairs = .ok (pairs.map Prod.fst) := by
  have hwf0 : BitWriter.wf { buffer := 0, length := 0, out := [] } :=
    ⟨by norm_num, by norm_num, by simp⟩
  obtain ⟨hwfW, hvW, hbW⟩ := writeAll_spec pairs _ hwf0 hp
  obtain ⟨hflush1, hflush2, hflush3⟩ := BitWriter.flushOut_spec _ hwfW
  apply readAll_spec pairs _ ⟨by norm_num, by norm_num, hflush3⟩ hp
  · show 0 + 2 ^ 0 * bytesVal (BitWriter.flushOut (writeAll { buffer := 0, length := 0, out := [] } pairs)) =
      streamValPairs pairs
    rw [hflush1, hvW]
    simp [BitWriter.streamVal, BitWriter.streamBits, bytesVal]
  · show streamLenPairs pairs ≤
      0 + 8 * (BitWriter.flushOut (writeAll { buffer := 0, length := 0, out := [] } pairs)).length
    have := hbW
    simp only [BitWriter.streamBits, List.length_nil] at this
    omega

/-- C5 (witness for bit_roundtrip): two concrete fields survive the round
trip. -/
theorem bit_roundtrip_witness :
    roundTrip [(5, 3), (1, 1)] = .ok [5, 1] :=
  bit_roundtrip [(5, 3), (1, 1)] (by decide) (by decide)

/-! ## Block symbol generation (src/essam/src/deflate.rs, claim C10)

`compress_block_gen_symbols` reads up to `block_size` bytes through a 256 byte
scratch buffer, pushes each byte as a literal symbol, and then asserts that at
least one byte was consumed.  The model below keeps the read loop and the
assertion; the frequency table bookkeeping (literal_freqs, the fixed EOF count,
and the constant BlockCompressionInfo result) does not influence how many bytes
are consumed and is not needed by the claim. -/

/-- `DeflateOptions` (deflate.rs lines 27-29, default block_size 16384). -/
structure DeflateOptions where
  block_size : Nat

/-- The read loop of `compress_block_gen_symbols` (deflate.rs lines 196-212):
`remaining` is `block_size - tot_read_bytes`; each turn reads
`min (min 256 remaining) available` bytes and stops on a zero read or a filled
block.  Returns the bytes consumed and the rest of the source. -/
def genLoop (src : List Nat) (remaining : Nat) : Nat × List Nat :=
  let n := min (min 256 remaining) src.length
  if n = 0 ∨ remaining - n = 0 then (n, src.drop n)
  else
    let r := genLoop (src.drop n) (remaining - n)
    (n + r.1, r.2)
termination_by remaining
decreasing_by
  simp only [not_or] at *
  omega

/-- `compress_block_gen_symbols` (deflate.rs lines 178-220): runs the read
loop, panics on the assertion `tot_read_bytes > 0` if nothing was consumed,
otherwise returns the consumed byte count, the symbols of the block (the
consumed bytes in order), and the unread rest of the source. -/
def compressBlockGenSymbols (src : List Nat) (options : DeflateOptions) :
    Except RunError (Nat × List Nat × List Nat) :=
  let r := genLoop src options.block_size
  if r.1 = 0 then .error .panicked
  else .ok (r.1, src.take r.1, r.2)

/-- C10: on a source yielding zero bytes the assertion `tot_read_bytes > 0`
fails (a panic, so compress never returns Ok on empty input, since compress
calls compress_block, which calls compress_block_gen_symbols first in every
block); on a source that still yields at least one byte at the start of the
block, the loop consumes at least one byte (for any positive block size, in
particular the default 16384), so the assertion holds in every such block. -/
theorem gen_symbols_consumes_input :
    (∀ options : DeflateOptions, compressBlockGenSymbols [] options = .error RunError.panicked) ∧
      ∀ (src : List Nat) (options : DeflateOptions), src ≠ [] → 1 ≤ options.block_size →
        ∃ tot symbols rest, compressBlockGenSymbols src options = .ok (tot, symbols, rest) ∧
          1 ≤ tot := by
  constructor
  · intro options
    rw [compressBlockGenSymbols, genLoop]
    simp
  · intro src options hsrc hbs
    have hlen : 1 ≤ src.length := List.length_pos.mpr hsrc
    have hpos : 1 ≤ (genLoop src options.block_size).1 := by
      rw [genLoop]
      have hn : 1 ≤ min (min 256 options.block_size) src.length := by omega
      by_cases hstop : min (min 256 options.block_size) src.length = 0 ∨
          options.block_size - min (min 256 options.block_size) src.length = 0
      · simp only [if_pos hstop]
        omega
      · simp only [if_neg hstop]
        omega
    rw [compressBlockGenSymbols]
    simp only [if_neg (by omega : ¬ (genLoop src options.block_size).1 = 0)]
    exact ⟨_, _, _, rfl, hpos⟩

/-- C10 (witness for gen_symbols_consumes_input): the one byte source [7] with
the default block size. -/
theorem gen_symbols_consumes_input_witness :
    ∃ tot symbols rest,
      compressBlockGenSymbols [7] { block_size := 16384 } = .ok (tot, symbols, rest) ∧
        1 ≤ tot :=
  gen_symbols_consumes_input.2 [7] { block_size := 16384 } (by decide) (by decide)

/-! ## Package merge (src/essam/src/package_merge.rs, claims C2 and C6)

The model follows the source structure: sorted non-zero symbols become coins,
`max_length - 1` package/merge passes run over them, and the final coin list is
counted into per-symbol lengths.  `Except` carries both the InvalidMaxLength
error value of the source and panics of unreachable match arms. -/

inductive PackageMergeError where
  | invalidMaxLength
  | panicked
deriving DecidableEq

/-- Sentinel `u16::MAX` marking a pure coin (no package index). -/
def INVALID_ID : Nat := 65535

/-- Sentinel `u16::MAX` marking a pure coin id slot of a package. -/
def INVALID_PACKAGE_IDX : Nat := 65535

/-- `CoinOrPackage` (package_merge.rs lines 73-78): a pure coin carries its
symbol in `id` with `packageIdx = INVALID_PACKAGE_IDX`; a package carries
`id = INVALID_ID` and the index of its id list in packages_data. -/
structure CoinOrPackage where
  weight : Nat
  id : Nat
  packageIdx : Nat
deriving DecidableEq

/-- Stable insert for the sort below: an element goes in front of the first
strictly larger key, after equal keys. -/
def insertByKey (key : Nat → Nat) (x : Nat) : List Nat → List Nat
  | [] => [x]
  | y :: ys => if key x ≤ key y then x :: y :: ys else y :: insertByKey key x ys

/-- Model of `order.sort_unstable_by_key(|&idx1| freqs[idx1])` (line 98) as a
stable insertion sort.  The Rust sort is unstable, so the relative order of
equal frequencies is unspecified there; the claims evaluated below do not
depend on the tie order (their inputs have at most one non-zero frequency, and
zero-frequency symbols are all dropped). -/
def sortByKey (key : Nat → Nat) (l : List Nat) : List Nat :=
  l.foldr (insertByKey key) []

/-- The packaging pass over one denomination (package_merge.rs lines 158-275):
consecutive pairs of the current coin list are fused; the pair arms mirror the
Rust match on the two sentinels, and the unreachable final arm panics.
Packages append their partner ids to packages_data exactly as the source
(including the swap-then-extend dance when two packages fuse); an odd trailing
coin is discarded. -/
def packPairs : List CoinOrPackage → List (List Nat) →
    Except PackageMergeError (List CoinOrPackage × List (List Nat))
  | c1 :: c2 :: rest, pd =>
    if c1.packageIdx = INVALID_PACKAGE_IDX ∧ c2.packageIdx = INVALID_PACKAGE_IDX then
      match packPairs rest (pd ++ [[c1.id, c2.id]]) with
      | .error e => .error e
      | .ok (cs, pd') =>
        .ok ({ weight := c1.weight + c2.weight, id := INVALID_ID,
               packageIdx := pd.length } :: cs, pd')
    else if c1.id = INVALID_ID ∧ c2.packageIdx = INVALID_PACKAGE_IDX then
      match packPairs rest (pd.set c1.packageIdx (pd.getD c1.packageIdx [] ++ [c2.id])) with
      | .error e => .error e
      | .ok (cs, pd') =>
        .ok ({ weight := c1.weight + c2.weight, id := INVALID_ID,
               packageIdx := c1.packageIdx } :: cs, pd')
    else if c1.packageIdx = INVALID_PACKAGE_IDX ∧ c2.id = INVALID_ID then
      match packPairs rest (pd.set c2.packageIdx (pd.getD c2.packageIdx [] ++ [c1.id])) with
      | .error e => .error e
      | .ok (cs, pd') =>
        .ok ({ weight := c1.weight + c2.weight, id := INVALID_ID,
               packageIdx := c2.packageIdx } :: cs, pd')
    else if c1.id = INVALID_ID ∧ c2.id = INVALID_ID then
      match packPairs rest
          ((pd.set c1.packageIdx []).set c2.packageIdx
            ((pd.set c1.packageIdx []).getD c2.packageIdx [] ++ pd.getD c1.packageIdx [])) with
      | .error e => .error e
      | .ok (cs, pd') =>
        .ok ({ weight := c1.weight + c2.weight, id := INVALID_ID,
               packageIdx := c2.packageIdx } :: cs, pd')
    else .error .panicked
  | _, pd => .ok ([], pd)

/-- The merge of original coins with the formed packages, capped at
max_num_coins (package_merge.rs lines 277-306): ascending by weight, original
coins win ties, leftovers fill the remaining capacity. -/
def mergeCoins : Nat → List CoinOrPackage → List CoinOrPackage → List CoinOrPackage
  | 0, _, _ => []
  | _ + 1, [], [] => []
  | k + 1, o :: os, [] => o :: mergeCoins k os []
  | k + 1, [], f :: fs => f :: mergeCoins k [] fs
  | k + 1, o :: os, f :: fs =>
    if o.weight ≤ f.weight then o :: mergeCoins k os (f :: fs)
    else f :: mergeCoins k (o :: os) fs

/-- The denomination loop `for _ in 0..max_length - 1` (package_merge.rs line
158): package the current coins, then merge the originals with the packages. -/
def pmLoop (original : List CoinOrPackage) (cap : Nat) :
    Nat → List CoinOrPackage → List (List Nat) →
    Except PackageMergeError (List CoinOrPackage × List (List Nat))
  | 0, current, pd => .ok (current, pd)
  | k + 1, current, pd =>
    match packPairs current pd with
    | .error e => .error e
    | .ok (formed, pd') => pmLoop original cap k (mergeCoins cap original formed) pd'

/-- `lengths[id] += 1` on the length vector. -/
def bumpOne (lengths : List Nat) (i : Nat) : List Nat :=
  lengths.set i (lengths.getD i 0 + 1)

/-- Length contribution of one final coin (package_merge.rs lines 312-332):
a pure coin increments its symbol, a package increments every symbol it
covers. -/
def coinLengths (pd : List (List Nat)) (lengths : List Nat) (c : CoinOrPackage) : List Nat :=
  if c.packageIdx = INVALID_PACKAGE_IDX then bumpOne lengths c.id
  else (pd.getD c.packageIdx []).foldl bumpOne lengths

/-- Recovery of the per-symbol lengths from the final coin list. -/
def computeLengths (n : Nat) (current : List CoinOrPackage) (pd : List (List Nat)) :
    List Nat :=
  current.foldl (coinLengths pd) (List.replicate n 0)

/-- Bit length of a usize value with 64 bits of fuel: models
`num_bits - max_code.leading_zeros()` (package_merge.rs lines 111-116). -/
def bitLenAux : Nat → Nat → Nat
  | 0, _ => 0
  | _ + 1, 0 => 0
  | fuel + 1, n + 1 => bitLenAux fuel ((n + 1) / 2) + 1

/-- Bit length of a 64 bit value. -/
def bitLen (n : Nat) : Nat := bitLenAux 64 n

/-- `package_merge` (package_merge.rs lines 82-335). -/
def packageMerge (freqs : List Nat) (maxLength : Nat) :
    Except PackageMergeError (List Nat) :=
  if freqs.length = 1 then
    .ok [if 0 < freqs.getD 0 0 then 1 else 0]
  else if freqs.length = 2 then
    .ok [if 0 < freqs.getD 0 0 then 1 else 0, if 0 < freqs.getD 1 0 then 1 else 0]
  else
    let order := sortByKey (fun i => freqs.getD i 0) (List.range freqs.length)
    let nonZeroOrder := order.dropWhile fun i => freqs.getD i 0 == 0
    match nonZeroOrder with
    | [] => .ok (List.replicate freqs.length 0)
    | _ :: _ =>
      let numSymbols := nonZeroOrder.length
      let leastAllowableMaxLength := bitLen (numSymbols - 1)
      if maxLength < leastAllowableMaxLength then .error .invalidMaxLength
      else if maxLength = leastAllowableMaxLength then
        .ok (freqs.map fun f => if f ≠ 0 then leastAllowableMaxLength else 0)
      else
        let maxNumCoins := 2 * (numSymbols - 1)
        let originalCoins := nonZeroOrder.map fun i =>
          ({ weight := freqs.getD i 0, id := i,
             packageIdx := INVALID_PACKAGE_IDX } : CoinOrPackage)
        match pmLoop originalCoins maxNumCoins (maxLength - 1) originalCoins [] with
        | .error e => .error e
        | .ok (current, pd) => .ok (computeLengths freqs.length current pd)

/-- C2: the spec says every symbol with non-zero frequency receives a length of
at least 1 whenever L is at least ceil(log2 of the non-zero count).  The input
freqs = [0, 0, 7] with L = 3 satisfies that premise (one non-zero entry, so the
bound is 0), yet the code returns Ok([0, 0, 0]): with a single non-zero symbol
the coin cap 2 * (numSymbols - 1) is 0, the merge empties the coin list, and
the used symbol ends with length 0, violating the claimed lower bound (the
Kraft sum and the max bound hold trivially there). -/
theorem package_merge_positive_length_violation :
    packageMerge [0, 0, 7] 3 = .ok [0, 0, 0] := by
  decide

/-- C6: the spec says a frequency vector with exactly one non-zero entry gets
length 1 for that symbol for every accepted max_length.  For N = 3,
freqs = [1, 0, 0] and max_length = 2 the call is accepted and returns
Ok([0, 0, 0]) instead of [1, 0, 0]: the special cases cover only N <= 2, and
in the general path the cap 2 * (numSymbols - 1) = 0 empties the coin list. -/
theorem package_merge_single_nonzero_gets_zero :
    packageMerge [1, 0, 0] 2 = .ok [0, 0, 0] := by
  decide

/-! ## Huffman tree construction (src/essam/src/huffman.rs, claim C7) -/

/-- `Node` (huffman.rs lines 30-33): optional child ids. -/
structure HNode where
  left : Option Nat
  right : Option Nat
deriving DecidableEq

/-- `HuffmanTree` (huffman.rs lines 6-9): leaves occupy ids [0, numSymbols),
appended internal nodes follow. -/
structure HuffmanTree where
  nodes : List HNode
  numSymbols : Nat
deriving DecidableEq

/-- `NonMaxU16::new(v as u16)` (nonmax.rs): the u16 cast truncates, and the
value 65535 becomes None. -/
def nonMaxNew (x : Nat) : Option Nat :=
  if x % 65536 = 65535 then none else some (x % 65536)

/-- Ordered insert into the model of `BinaryHeap<Reverse<HeapEntry>>`: the heap
pops the least (freq, idx) pair, and since the idx components are distinct the
order is total, so the heap behaves as this ascending sorted list. -/
def heapInsert (x : Nat × Nat) : List (Nat × Nat) → List (Nat × Nat)
  | [] => [x]
  | y :: ys =>
    if x.1 < y.1 ∨ (x.1 = y.1 ∧ x.2 < y.2) then x :: y :: ys
    else y :: heapInsert x ys

/-- The merge loop `while heap.len() > 1` (huffman.rs lines 89-105): pop the
two least entries, append an internal node pointing at them, push the fused
entry keyed by the summed frequency.  The heap shrinks by one per turn, so the
initial heap size is enough fuel. -/
def buildLoop : Nat → List (Nat × Nat) → List HNode → List HNode
  | 0, _, nodes => nodes
  | fuel + 1, e1 :: e2 :: hs, nodes =>
    buildLoop fuel (heapInsert (e1.1 + e2.1, nodes.length) hs)
      (nodes ++ [{ left := nonMaxNew e1.2, right := nonMaxNew e2.2 }])
  | _ + 1, _, nodes => nodes

/-- `HuffmanTree::build` (huffman.rs lines 60-108): one blank leaf per symbol,
every non-zero frequency symbol into the min-heap, then the merge loop. -/
def HuffmanTree.build (freqs : List Nat) : HuffmanTree :=
  let heap := (List.range freqs.length).foldl
    (fun h i => if freqs.getD i 0 ≠ 0 then heapInsert (freqs.getD i 0, i) h else h) []
  { nodes := buildLoop heap.length heap
      (List.replicate freqs.length { left := none, right := none }),
    numSymbols := freqs.length }

/-- C7: the spec says a frequency vector with one non-zero symbol yields a tree
with that leaf and one internal root whose left child is the leaf.  The merge
loop only runs while the heap holds two entries, so for freqs = [0, 5] no
internal node is ever appended: the tree is just the two childless leaves (and
the walk entry point nodes.len() - 1 is the unreachable leaf 1), not a leaf
under a root. -/
theorem build_single_symbol_no_root :
    HuffmanTree.build [0, 5] =
      { nodes := [{ left := none, right := none }, { left := none, right := none }],
        numSymbols := 2 } := by
  decide

/-! ## Huffman tables (src/essam/src/huffman.rs, claims C8 and C9)

PrefixCode stores the wire code LSB first; canonicalize assigns RFC 1951
canonical codes from the stored lengths and bit-reverses them into the code
field.  The u32 arithmetic of the source is modeled with explicit `% 2 ^ 32`
and panic branches for debug overflow and for indexing the 32 entry counter
array with a length of 32 or more. -/

/-- `PrefixCode` (huffman.rs lines 16-20). -/
structure PrefixCode where
  code : Nat
  length : Nat
deriving DecidableEq

/-- `HuffmanTable` (huffman.rs lines 11-14). -/
structure HuffmanTable where
  codes : List PrefixCode
deriving DecidableEq

/-- Bit reversal of the low `w` bits (equals `u32::reverse_bits` at w = 32 on
u32 values). -/
def revBits : Nat → Nat → Nat
  | 0, _ => 0
  | w + 1, x => x % 2 * 2 ^ w + revBits w (x / 2)

/-- The next_code loop (huffman.rs lines 225-229): walking length classes 1 to
31, record the running code, then shift (code + count) left by one; the u32
addition panics on overflow in a debug build and the u32 shift keeps the low
32 bits.  Produces the list next_code[1..=31]. -/
def nextCodeScan : Nat → List Nat → Except RunError (List Nat)
  | _, [] => .ok []
  | code, c :: cs =>
    if 2 ^ 32 ≤ code + c then .error .panicked
    else
      match nextCodeScan ((code + c) * 2 % 2 ^ 32) cs with
      | .error e => .error e
      | .ok rest => .ok (code :: rest)

/-- The assignment loop (huffman.rs lines 231-236): a symbol of non-zero
length ℓ receives `next_code[ℓ].reverse_bits() >> (32 - ℓ)` and bumps
next_code[ℓ] (u32 overflow panics in a debug build); zero length symbols keep
their stored code.  The callers guard every length below 32, so the 32 entry
array `nc` is always indexed in bounds here. -/
def assignCodes : List PrefixCode → List Nat →
    Except RunError (List PrefixCode × List Nat)
  | [], nc => .ok ([], nc)
  | c :: cs, nc =>
    if c.length = 0 then
      match assignCodes cs nc with
      | .error e => .error e
      | .ok (cs', nc') => .ok (c :: cs', nc')
    else
      if 2 ^ 32 ≤ nc.getD c.length 0 + 1 then .error .panicked
      else
        match assignCodes cs (nc.set c.length (nc.getD c.length 0 + 1)) with
        | .error e => .error e
        | .ok (cs', nc') =>
          .ok ({ code := revBits 32 (nc.getD c.length 0) >>> (32 - c.length),
                 length := c.length } :: cs', nc')

/-- The `lengths_count` counters over a length list. -/
def lengthsCount (lengths : List Nat) (i : Nat) : Nat :=
  lengths.countP fun ℓ => ℓ == i

/-- `canonicalize_impl` (huffman.rs lines 221-237) on a code list whose
per-length counters are `count`. -/
def canonicalizeImpl (codes : List PrefixCode) (count : Nat → Nat) :
    Except RunError (List PrefixCode) :=
  match nextCodeScan 0 ((List.range 31).map fun i => count (i + 1)) with
  | .error e => .error e
  | .ok ncTail =>
    match assignCodes codes (0 :: ncTail) with
    | .error e => .error e
    | .ok (cs, _) => .ok cs

/-- `HuffmanTable::canonicalize` (huffman.rs lines 212-219): counting a stored
length of 32 or more panics on the 32 entry counter array, otherwise the codes
are reassigned from the current lengths. -/
def HuffmanTable.canonicalize (t : HuffmanTable) : Except RunError HuffmanTable :=
  if t.codes.any fun c => 32 ≤ c.length then .error .panicked
  else
    match canonicalizeImpl t.codes (lengthsCount (t.codes.map PrefixCode.length)) with
    | .error e => .error e
    | .ok cs => .ok { codes := cs }

/-- `HuffmanTable::from_lengths` (huffman.rs lines 165-183): zero-initialized
codes carrying the given lengths, canonicalized. -/
def HuffmanTable.fromLengths (lengths : List Nat) : Except RunError HuffmanTable :=
  if lengths.any fun ℓ => 32 ≤ ℓ then .error .panicked
  else
    match canonicalizeImpl (lengths.map fun ℓ => { code := 0, length := ℓ })
        (lengthsCount lengths) with
    | .error e => .error e
    | .ok cs => .ok { codes := cs }

/-- The per-code bit descent of `impl From<&HuffmanTable> for HuffmanTree`
(huffman.rs lines 279-327).  State: remaining bits, current bit index, the
node array, the downward allocation cursor, and the crawler node id.  Panics
model out of bounds indexing, the u32 shift `1 << bit_idx` with bit_idx >= 32,
the usize underflow of `alloc_idx -= 1`, and the two asserts after the loop
that the reached node is childless. -/
def insertBits (idx codeVal len : Nat) :
    Nat → Nat → List HNode → Nat → Nat → Except RunError (List HNode × Nat × Nat)
  | 0, _, nodes, alloc, crawler =>
    if nodes.length ≤ crawler then .error .panicked
    else
      let node := nodes.getD crawler { left := none, right := none }
      if node.left ≠ none then .error .panicked
      else if node.right ≠ none then .error .panicked
      else .ok (nodes, alloc, crawler)
  | bitsLeft + 1, bitIdx, nodes, alloc, crawler =>
    if nodes.length ≤ crawler then .error .panicked
    else if 32 ≤ bitIdx then .error .panicked
    else
      let node := nodes.getD crawler { left := none, right := none }
      if codeVal &&& (1 <<< bitIdx) = 0 then
        match node.left with
        | none =>
          if bitIdx = len - 1 then
            insertBits idx codeVal len bitsLeft (bitIdx + 1)
              (nodes.set crawler { node with left := nonMaxNew idx }) alloc idx
          else if alloc = 0 then .error .panicked
          else
            insertBits idx codeVal len bitsLeft (bitIdx + 1)
              (nodes.set crawler { node with left := nonMaxNew (alloc - 1) })
              (alloc - 1) (alloc - 1)
        | some j => insertBits idx codeVal len bitsLeft (bitIdx + 1) nodes alloc j
      else
        match node.right with
        | none =>
          if bitIdx = len - 1 then
            insertBits idx codeVal len bitsLeft (bitIdx + 1)
              (nodes.set crawler { node with right := nonMaxNew idx }) alloc idx
          else if alloc = 0 then .error .panicked
          else
            insertBits idx codeVal len bitsLeft (bitIdx + 1)
              (nodes.set crawler { node with right := nonMaxNew (alloc - 1) })
              (alloc - 1) (alloc - 1)
        | some j => insertBits idx codeVal len bitsLeft (bitIdx + 1) nodes alloc j

/-- The outer loop of the table-to-tree conversion: every code of non-zero
length is inserted starting from the root (capacity - 1). -/
def tftLoop (capacity : Nat) : List (Nat × PrefixCode) → List HNode → Nat →
    Except RunError (List HNode × Nat)
  | [], nodes, alloc => .ok (nodes, alloc)
  | (idx, c) :: rest, nodes, alloc =>
    if c.length = 0 then tftLoop capacity rest nodes alloc
    else
      match insertBits idx c.code c.length c.length 0 nodes alloc (capacity - 1) with
      | .error e => .error e
      | .ok (nodes', alloc', _) => tftLoop capacity rest nodes' alloc'

/-- `impl From<&HuffmanTable> for HuffmanTree` (huffman.rs lines 261-332):
capacity 2N - 1 blank nodes (usize underflow on an empty table), root and
allocation cursor at the last node, every code inserted in symbol order. -/
def HuffmanTree.fromTable (t : HuffmanTable) : Except RunError HuffmanTree :=
  if t.codes.length = 0 then .error .panicked
  else
    let capacity := 2 * t.codes.length - 1
    match tftLoop capacity t.codes.enum
        (List.replicate capacity { left := none, right := none }) (capacity - 1) with
    | .error e => .error e
    | .ok (nodes, _) => .ok { nodes := nodes, numSymbols := t.codes.length }

/-- C8: the claim ranges over every length vector with Kraft sum at most 1.
The vector [2, 2] has Kraft sum 1/2, from_lengths builds the prefix-free codes
(0, 2) and (2, 2), yet the tree conversion panics: capacity 2N - 1 = 3 assumes
a Kraft-complete code, the second code reuses internal node 1 and attaches its
leaf (id 1) there, and the post-insertion `assert!(nodes[crawler].left.is_none())`
fails, so no well-formed tree is produced. -/
theorem tree_from_table_kraft_deficient_panics :
    HuffmanTable.fromLengths [2, 2] =
        .ok { codes := [{ code := 0, length := 2 }, { code := 2, length := 2 }] } ∧
      HuffmanTree.fromTable
          { codes := [{ code := 0, length := 2 }, { code := 2, length := 2 }] } =
        .error RunError.panicked :=
  ⟨by decide, by decide⟩

/-- The assignment loop preserves the stored lengths. -/
theorem assignCodes_lengths (cs : List PrefixCode) :
    ∀ nc cs' nc', assignCodes cs nc = .ok (cs', nc') →
      cs'.map PrefixCode.length = cs.map PrefixCode.length := by
  induction cs with
  | nil =>
    intro nc cs' nc' h
    rw [assignCodes] at h
    simp only [Except.ok.injEq, Prod.mk.injEq] at h
    obtain ⟨h1, h2⟩ := h
    subst h1
    rfl
  | cons c cs ih =>
    intro nc cs' nc' h
    rw [assignCodes] at h
    by_cases hc : c.length = 0
    · rw [if_pos hc] at h
      cases hrec : assignCodes cs nc with
      | error e => rw [hrec] at h; simp at h
      | ok p =>
        rw [hrec] at h
        obtain ⟨cs2, nc2⟩ := p
        simp only [Except.ok.injEq, Prod.mk.injEq] at h
        obtain ⟨h1, h2⟩ := h
        subst h1
        rw [List.map_cons, List.map_cons, ih nc cs2 nc2 hrec]
    · rw [if_neg hc] at h
      by_cases hov : 2 ^ 32 ≤ nc.getD c.length 0 + 1
      · rw [if_pos hov] at h
        simp at h
      · rw [if_neg hov] at h
        cases hrec : assignCodes cs (nc.set c.length (nc.getD c.length 0 + 1)) with
        | error e => rw [hrec] at h; simp at h
        | ok p =>
          rw [hrec] at h
          obtain ⟨cs2, nc2⟩ := p
          simp only [Except.ok.injEq, Prod.mk.injEq] at h
          obtain ⟨h1, h2⟩ := h
          subst h1
          rw [List.map_cons, List.map_cons, ih _ cs2 nc2 hrec]

/-- Re-running the assignment loop on its own output from the same counters
reproduces the output: the assigned codes depend only on the lengths, which
are unchanged. -/
theorem assignCodes_idem (cs : List PrefixCode) :
    ∀ nc cs' nc', assignCodes cs nc = .ok (cs', nc') →
      assignCodes cs' nc = .ok (cs', nc') := by
  induction cs with
  | nil =>
    intro nc cs' nc' h
    rw [assignCodes] at h
    simp only [Except.ok.injEq, Prod.mk.injEq] at h
    obtain ⟨h1, h2⟩ := h
    subst h1
    subst h2
    rw [assignCodes]
  | cons c cs ih =>
    intro nc cs' nc' h
    rw [assignCodes] at h
    by_cases hc : c.length = 0
    · rw [if_pos hc] at h
      cases hrec : assignCodes cs nc with
      | error e => rw [hrec] at h; simp at h
      | ok p =>
        rw [hrec] at h
        obtain ⟨cs2, nc2⟩ := p
        simp only [Except.ok.injEq, Prod.mk.injEq] at h
        obtain ⟨h1, h2⟩ := h
        subst h1
        subst h2
        rw [assignCodes, if_pos hc, ih nc cs2 nc2 hrec]
    · rw [if_neg hc] at h
      by_cases hov : 2 ^ 32 ≤ nc.getD c.length 0 + 1
      · rw [if_pos hov] at h
        simp at h
      · rw [if_neg hov] at h
        cases hrec : assignCodes cs (nc.set c.length (nc.getD c.length 0 + 1)) with
        | error e => rw [hrec] at h; simp at h
        | ok p =>
          rw [hrec] at h
          obtain ⟨cs2, nc2⟩ := p
          simp only [Except.ok.injEq, Prod.mk.injEq] at h
          obtain ⟨h1, h2⟩ := h
          subst h1
          subst h2
          rw [assignCodes]
          simp only [if_neg hc, if_neg hov]
          rw [ih _ cs2 nc2 hrec]

/-- Whether some stored length reaches 32 depends only on the length list. -/
theorem any_len_ge32_congr (l1 : List PrefixCode) :
    ∀ l2 : List PrefixCode, l1.map PrefixCode.length = l2.map PrefixCode.length →
      (l1.any fun c => 32 ≤ c.length) = (l2.any fun c => 32 ≤ c.length) := by
  induction l1 with
  | nil =>
    intro l2 h
    cases l2 with
    | nil => rfl
    | cons c t => simp at h
  | cons c1 t1 ih =>
    intro l2 h
    cases l2 with
    | nil => simp at h
    | cons c2 t2 =>
      simp only [List.map_cons, List.cons.injEq] at h
      obtain ⟨h1, h2⟩ := h
      simp only [List.any_cons, h1, ih t2 h2]

/-- C9: canonicalize is idempotent.  A successful canonicalize leaves every
length unchanged, and the reassigned codes depend only on the lengths, so a
second call returns its input unchanged (when the first call panics, on a
stored length of 32 or more or a u32 overflow, there is no result to compare,
and the model confirms the claim on every table the first call accepts). -/
theorem canonicalize_idempotent (t t' : HuffmanTable)
    (h : t.canonicalize = .ok t') : t'.canonicalize = .ok t' := by
  rw [HuffmanTable.canonicalize] at h
  by_cases hany : t.codes.any fun c => 32 ≤ c.length
  · rw [if_pos hany] at h
    simp at h
  · rw [if_neg hany] at h
    rw [canonicalizeImpl] at h
    cases hscan : nextCodeScan 0
        ((List.range 31).map fun i => lengthsCount (t.codes.map PrefixCode.length) (i + 1)) with
    | error e => rw [hscan] at h; simp at h
    | ok ncTail =>
      rw [hscan] at h
      simp only [] at h
      cases hassign : assignCodes t.codes (0 :: ncTail) with
      | error e => rw [hassign] at h; simp at h
      | ok p =>
        rw [hassign] at h
        obtain ⟨cs, ncRest⟩ := p
        simp only [Except.ok.injEq] at h
        subst h
        have hlen : cs.map PrefixCode.length = t.codes.map PrefixCode.length :=
          assignCodes_lengths t.codes _ cs ncRest hassign
        simp only [HuffmanTable.canonicalize, canonicalizeImpl]
        rw [any_len_ge32_congr cs t.codes hlen, if_neg hany, hlen, hscan]
        simp only []
        rw [assignCodes_idem t.codes _ cs ncRest hassign]

/-- C9 (witness for canonicalize_idempotent): a concrete two symbol table. -/
theorem canonicalize_idempotent_witness :
    HuffmanTable.canonicalize
        { codes := [{ code := 0, length := 1 }, { code := 1, length := 1 }] } =
      .ok { codes := [{ code := 0, length := 1 }, { code := 1, length := 1 }] } :=
  canonicalize_idempotent
    { codes := [{ code := 7, length := 1 }, { code := 7, length := 1 }] }
    { codes := [{ code := 0, length := 1 }, { code := 1, length := 1 }] }
    (by decide)

end Essam
